import Mathlib

/-!
Verification of the diffdb change-tracking library.

The library (package `diffdb`) tracks changes to values by structural
fingerprint, persisting state in four nested BoltDB buckets per collection:

* `_m`  (`bucketHashes`)          — committed records: identity → fingerprint
* `_ph` (`bucketPendingHashes`)   — pending records:   identity → fingerprint
* `_pd` (`bucketPendingHashData`) — pending payloads:  fingerprint → encoded bytes
* `_dk` (`bucketKeyConflicts`)    — conflict markers:  identity → nil sentinel

We embed the BoltDB buckets as association lists sorted in strictly
ascending byte order of their keys, mirroring Bolt's ordered key space and
its ordered forward cursor.  Keys and stored values are byte strings,
modelled as `List Nat`.  The external collaborators (the `hashstructure`
structural hash and the msgpack codec) are parameters of the development:
`hstruct : V → Option Nat` stands for `hashstructure.Hash` (a `uint64`
result, `none` on error) and `marshal : V → Option (List Nat)` for
`msgpack.Marshal`.
-/

namespace DiffDB

/-- Byte strings (BoltDB keys and values). -/
abbrev ByteStr := List Nat

/-- A BoltDB bucket: an association list sorted by strictly ascending key. -/
abbrev Bucket (α : Type) := List (ByteStr × α)

/-- `Bucket.Get`: BoltDB `Bucket.Get` — `none` models Go's `nil` return. -/
def Bucket.Get (l : Bucket α) (k : ByteStr) : Option α :=
  match l with
  | [] => none
  | (k', v) :: rest => if k = k' then some v else Bucket.Get rest k

/-- `Bucket.Put`: BoltDB `Bucket.Put`, keeping keys in ascending byte order
(replacing the value if the key is already present). -/
def Bucket.Put (l : Bucket α) (k : ByteStr) (v : α) : Bucket α :=
  match l with
  | [] => [(k, v)]
  | (k', v') :: rest =>
    if k < k' then (k, v) :: (k', v') :: rest
    else if k = k' then (k, v) :: rest
    else (k', v') :: Bucket.Put rest k v

/-- `Bucket.Del`: BoltDB `Bucket.Delete` (removes the key if present). -/
def Bucket.Del (l : Bucket α) (k : ByteStr) : Bucket α :=
  match l with
  | [] => []
  | (k', v') :: rest => if k = k' then rest else (k', v') :: Bucket.Del rest k

/-- A bucket is well formed when its keys are strictly ascending (as BoltDB
stores them). -/
def Bucket.Sorted (l : Bucket α) : Prop :=
  l.Pairwise (fun a b => a.1 < b.1)

instance Bucket.instDecidableSorted (l : Bucket α) : Decidable l.Sorted := by
  unfold Bucket.Sorted; infer_instance


/-! ## Fingerprints (`HashOf`, diff.go lines 19–28)

`HashOf` calls the external `hashstructure.Hash` (returning a `uint64` and
possibly an error) and encodes the result with
`binary.LittleEndian.PutUint64` into a fresh 8-byte slice.  The external
hash is a parameter `hstruct : V → Option Nat`; `none` models its error
return, and byte extraction reduces the value mod `2^64` implicitly via
the per-byte `% 256` truncations (Go's `byte(v >> shift)`). -/

/-- `binary.LittleEndian.PutUint64` into an 8-byte slice:
byte `i` is `byte(v >> (8*i))`. -/
def putUint64LE (n : Nat) : ByteStr :=
  [n % 256, n / 2 ^ 8 % 256, n / 2 ^ 16 % 256, n / 2 ^ 24 % 256,
   n / 2 ^ 32 % 256, n / 2 ^ 40 % 256, n / 2 ^ 48 % 256, n / 2 ^ 56 % 256]

section Machine

variable {V σ E : Type}

/-- `HashOf` (diff.go 19–28): hash with `hashstructure`, then encode the
`uint64` little-endian into 8 bytes.  An error from the structural hash
(`none`) propagates to the caller. -/
def HashOf (hstruct : V → Option Nat) (x : V) : Option ByteStr :=
  (hstruct x).map putUint64LE

/-- The state of one named `Differential` collection: the four nested
buckets plus the in-memory `trackConflicts` flag (diff.go 42–48, 107–113).
`bh` is `_m` (committed hashes), `bph` is `_ph` (pending hashes), `bphd`
is `_pd` (pending payload keyed by hash), `bkc` is `_dk` (conflict
markers, stored with nil values). -/
structure DiffState where
  bh : Bucket ByteStr
  bph : Bucket ByteStr
  bphd : Bucket ByteStr
  bkc : Bucket Unit
  trackConflicts : Bool
deriving DecidableEq, Repr

/-- A freshly opened collection (`DB.Open`): all buckets empty, conflict
tracking off. -/
def freshDiff : DiffState :=
  { bh := [], bph := [], bphd := [], bkc := [], trackConflicts := false }

/-- Errors surfaced by `Add`/`Changed`. -/
inductive DiffError where
  /-- `ErrConflictingKey` (diff.go 16). -/
  | conflictingKey
  /-- an error returned by `hashstructure.Hash` inside `HashOf`. -/
  | hashFailed
  /-- an error returned by `msgpack.Marshal`. -/
  | marshalFailed
deriving DecidableEq, Repr

/-- `MustNotConflict` (diff.go 119–137): drop and recreate the conflict
bucket, and set the in-memory flag on commit. -/
def MustNotConflict (s : DiffState) : DiffState :=
  { s with bkc := [], trackConflicts := true }

/-- Go's `bytes.Compare(a, b) == 0` where `a` came from `Get` and may be
nil: a nil slice compares as empty. -/
def nilEq (a : Option ByteStr) (b : ByteStr) : Bool :=
  a.getD [] = b

/-- The write tail of `Add` (diff.go 191–211): record the pending hash,
marshal the value, store the payload under the hash, and set the conflict
marker when tracking.  A marshal error aborts the transaction, which
rolls back wholly (modelled by returning no state). -/
def Add.write (marshal : V → Option ByteStr) (s : DiffState) (id hash : ByteStr)
    (x : V) : Except DiffError DiffState :=
  let s1 : DiffState := { s with bph := s.bph.Put id hash }
  match marshal x with
  | none => .error .marshalFailed
  | some raw =>
    let s2 : DiffState := { s1 with bphd := s1.bphd.Put hash raw }
    if s2.trackConflicts then .ok { s2 with bkc := s2.bkc.Put id () }
    else .ok s2

/-- `Differential.Add` (diff.go 145–213).  One Bolt `Update` transaction:
an error return rolls the whole transaction back, so `.error` carries no
state.  The conflict check precedes hashing; a committed-hash match or an
identical pending hash is a no-op; a differing pending hash first deletes
the stale payload. -/
def Add (hstruct : V → Option Nat) (marshal : V → Option ByteStr)
    (s : DiffState) (id : ByteStr) (x : V) : Except DiffError DiffState :=
  if s.trackConflicts ∧ (s.bkc.Get id).isSome then
    .error .conflictingKey
  else
    match HashOf hstruct x with
    | none => .error .hashFailed
    | some hash =>
      -- existing := bh.Get(id); match := bytes.Compare(existing, hash) == 0
      if nilEq (s.bh.Get id) hash then .ok s
      else
        match s.bph.Get id with
        | some pending =>
          if 0 < pending.length ∧ pending = hash then .ok s
          else
            Add.write marshal { s with bphd := s.bphd.Del pending } id hash x
        | none => Add.write marshal s id hash x

/-- `Differential.Changed` (diff.go 216–229): a read-only (`View`)
transaction; `changed` is `bytes.Compare(committed, hash) != 0`. -/
def Changed (hstruct : V → Option Nat) (s : DiffState) (id : ByteStr)
    (x : V) : Except DiffError Bool :=
  match HashOf hstruct x with
  | none => .error .hashFailed
  | some hash => .ok (!nilEq (s.bh.Get id) hash)

/-- `Differential.CountTracking` (diff.go 233–241): `Stats().KeyN` of the
committed bucket. -/
def CountTracking (s : DiffState) : Nat :=
  s.bh.length

/-- `Differential.CountChanges` (diff.go 244–252): `Stats().KeyN` of the
pending-hash bucket. -/
def CountChanges (s : DiffState) : Nat :=
  s.bph.length

/-! ## The apply engine (`Each`, diff.go 258–313)

The Go callback is a closure over mutable caller state and may trigger the
`context` cancellation; we model it as a state-passing function returning
the new closure state, the error (if any), and whether the context is
cancelled once the call returns.  The `context.Done` channel is modelled
by the boolean `cancelled` threaded through the loop (monotone: once
cancelled, always cancelled). -/

/-- Model of `ApplyFunc` closures: old closure state, identity, payload
bytes ↦ new closure state, returned error, and whether the context has
been cancelled by the end of the call. -/
abbrev ApplyFn (σ E : Type) := σ → ByteStr → ByteStr → σ × Option E × Bool

/-- One error collected by `Each`'s `multierror` accumulator. -/
inductive EachErr (E : Type) where
  /-- `ctx.Err()` appended when the cancellation signal fires (diff.go 280–282). -/
  | canceled
  /-- a per-item error returned by the apply callback (diff.go 292–295). -/
  | item (id : ByteStr) (e : E)
deriving DecidableEq, Repr

/-- The outcome of `Each`: either the `panic("missing hash data")` at
diff.go 288, or the committed state with the aggregated error list
(`nil` being the empty list). -/
inductive EachResult (E : Type) where
  | panicked
  | done (s : DiffState) (errs : List (EachErr E))
deriving DecidableEq, Repr

/-- The scan loop of `Each` (diff.go 277–306), iterating the pending
records of the transaction snapshot in ascending key order.  Before each
entry the cancellation signal is polled; a missing payload panics; a
callback error is collected and the entry is skipped; otherwise the entry
is promoted: committed record written, pending record and payload
deleted. -/
def eachGo (f : ApplyFn σ E) :
    List (ByteStr × ByteStr) → σ → Bool → DiffState → List (EachErr E) → EachResult E
  | [], _, _, s, errs => .done s errs
  | (id, hash) :: rest, st, cancelled, s, errs =>
    if cancelled then .done s (errs ++ [.canceled])
    else
      match s.bphd.Get hash with
      | none => .panicked
      | some data =>
        match f st id data with
        | (st', some e, c) =>
          eachGo f rest st' (cancelled || c) s (errs ++ [.item id e])
        | (st', none, c) =>
          eachGo f rest st' (cancelled || c)
            { s with
              bh := s.bh.Put id hash
              bph := s.bph.Del id
              bphd := s.bphd.Del hash } errs

/-- `Differential.Each` (diff.go 258–313): one read-write transaction over
the whole scan; the transaction commits even when per-item errors or a
cancellation were recorded, so the returned state reflects every promoted
item. -/
def Each (s : DiffState) (f : ApplyFn σ E) (st : σ) (cancelled : Bool) :
    EachResult E :=
  eachGo f s.bph st cancelled s []

/-! ## Operation sequences (reachability) -/

/-- One caller-visible operation on a collection. -/
inductive Op (V σ E : Type) where
  | add (id : ByteStr) (x : V)
  | each (st : σ) (cancelled : Bool) (f : ApplyFn σ E)
  | mustNotConflict

/-- Run one operation; a failed `Add` (rolled-back transaction) and a
panicking `Each` leave the persisted state as it was. -/
def runOp (hstruct : V → Option Nat) (marshal : V → Option ByteStr)
    (s : DiffState) : Op V σ E → DiffState
  | .add id x =>
    match Add hstruct marshal s id x with
    | .ok s' => s'
    | .error _ => s
  | .each st c f =>
    match Each s f st c with
    | .done s' _ => s'
    | .panicked => s
  | .mustNotConflict => MustNotConflict s

/-- Run a sequence of operations left to right. -/
def runOps (hstruct : V → Option Nat) (marshal : V → Option ByteStr)
    (s : DiffState) (ops : List (Op V σ E)) : DiffState :=
  ops.foldl (runOp hstruct marshal) s

/-- `true` for the cycle-reset operation `MustNotConflict`; a list of
operations with no reset stays within one conflict-tracking cycle. -/
def Op.isReset : Op V σ E → Bool
  | .mustNotConflict => true
  | _ => false

/-- The spec's Pending Record / Pending Payload invariant: every pending
fingerprint has an entry in the payload bucket. -/
def PendingBacked (s : DiffState) : Prop :=
  ∀ p ∈ s.bph, (s.bphd.Get p.2).isSome

instance (s : DiffState) : Decidable (PendingBacked s) := by
  unfold PendingBacked; infer_instance

/-- The buckets touched by `Add`/`Each` are in Bolt's sorted form. -/
def DiffState.WF (s : DiffState) : Prop :=
  s.bh.Sorted ∧ s.bph.Sorted ∧ s.bphd.Sorted

instance (s : DiffState) : Decidable s.WF := by
  unfold DiffState.WF; infer_instance

end Machine

/-! ## Concrete instantiation used for witnesses and counterexamples

Values are natural numbers; the external structural hash is the identity
(injective, hence structurally-equal values collide exactly when equal)
and the codec marshals `n` to the single byte string `[n]`. -/

/-- Witness instantiation of `hashstructure.Hash`. -/
def hstructN : Nat → Option Nat := fun n => some n

/-- Witness instantiation of `msgpack.Marshal`. -/
def marshalN : Nat → Option ByteStr := fun n => some [n]

/-- An apply callback that always succeeds and never cancels. -/
def applyOkN : ApplyFn Nat Nat := fun st _ _ => (st, none, false)

/-- The callback of the cancellation test (diff_test.go 258–264): count
invocations and cancel the context right after the 4th one. -/
def cancelAfter4 : ApplyFn Nat Nat := fun st _ _ => (st + 1, none, st + 1 == 4)

/-- `Add` for the witness instantiation, keeping the prior state on error
(the rolled-back transaction). -/
def addN (s : DiffState) (id : ByteStr) (n : Nat) : DiffState :=
  match Add hstructN marshalN s id n with
  | .ok s' => s'
  | .error _ => s

/-- Ten distinct pending items on identities `[0], …, [9]` (the scenario
of diff_test.go 245–250). -/
def diffTen : DiffState :=
  (List.range 10).foldl (fun s i => addN s [i] (i + 100)) freshDiff

/-- Two identities pending at the same fingerprint (`Add([0], 5)` then
`Add([1], 5)`): the shared-payload scenario of spec §9. -/
def sShared : DiffState :=
  addN (addN freshDiff [0] 5) [1] 5

/-- `sShared` after `Add([0], 7)` supersedes identity `[0]`: the stale
payload it deletes is the one identity `[1]` still references. -/
def sSharedSuperseded : DiffState :=
  addN sShared [0] 7

/-- A collection whose identity `[0]` is committed at the fingerprint of
value `5`, directly after starting a conflict-tracking cycle: reached by
`Add([0], 5)`, a fully successful `Each`, then `MustNotConflict`. -/
def sCycleNoop : DiffState :=
  runOps hstructN marshalN freshDiff
    ([.add [0] 5, .each 0 false applyOkN, .mustNotConflict] : List (Op Nat Nat Nat))

/-- A fresh collection after `MustNotConflict` and a first, mutating
`Add([0], 5)` in the new cycle. -/
def sTracked1 : DiffState :=
  addN (MustNotConflict freshDiff) [0] 5

/-- A callback whose outcome depends only on the identity: it returns the
per-identity verdict `p id`, passes its closure state through unchanged
and never cancels the context. -/
def verdictFn {σ E : Type} (p : ByteStr → Option E) : ApplyFn σ E :=
  fun st id _ => (st, p id, false)

/-- Three distinct pending items on a fresh collection. -/
def sThree : DiffState :=
  addN (addN (addN freshDiff [0] 1) [1] 2) [2] 3

/-- A per-identity verdict failing exactly for identity `[1]`. -/
def failOn1 : ByteStr → Option Nat :=
  fun id => if id = [1] then some 7 else none

/-- The state expected after cancelling the scan of `diffTen` right after
its 4th item: the first four identities committed, the last six still
pending with their payloads. -/
def sAfterCancel : DiffState :=
  { bh := [([0], putUint64LE 100), ([1], putUint64LE 101),
           ([2], putUint64LE 102), ([3], putUint64LE 103)],
    bph := [([4], putUint64LE 104), ([5], putUint64LE 105),
            ([6], putUint64LE 106), ([7], putUint64LE 107),
            ([8], putUint64LE 108), ([9], putUint64LE 109)],
    bphd := [(putUint64LE 104, [104]), (putUint64LE 105, [105]),
             (putUint64LE 106, [106]), (putUint64LE 107, [107]),
             (putUint64LE 108, [108]), (putUint64LE 109, [109])],
    bkc := [], trackConflicts := false }

/-! ## Bucket lemmas -/

namespace Bucket

theorem Get_Put_self (l : Bucket α) (k : ByteStr) (v : α) :
    (l.Put k v).Get k = some v := by
  induction l with
  | nil => simp [Put, Get]
  | cons hd tl ih =>
    obtain ⟨k', v'⟩ := hd
    by_cases hlt : k < k'
    · simp [Put, hlt, Get]
    · by_cases heq : k = k'
      · simp [Put, hlt, heq, Get]
      · simp [Put, hlt, heq, Get, ih]

theorem Get_Put_ne (l : Bucket α) (k k'' : ByteStr) (v : α) (hne : k'' ≠ k) :
    (l.Put k v).Get k'' = l.Get k'' := by
  induction l with
  | nil => simp [Put, Get, hne]
  | cons hd tl ih =>
    obtain ⟨k', v'⟩ := hd
    by_cases hlt : k < k'
    · simp [Put, hlt, Get, hne]
    · by_cases heq : k = k'
      · subst heq
        simp [Put, hlt, Get, hne]
      · by_cases h2 : k'' = k'
        · simp [Put, hlt, heq, Get, h2]
        · simp [Put, hlt, heq, Get, h2, ih]

theorem Get_Del_ne (l : Bucket α) (k k'' : ByteStr) (hne : k'' ≠ k) :
    (l.Del k).Get k'' = l.Get k'' := by
  induction l with
  | nil => simp [Del]
  | cons hd tl ih =>
    obtain ⟨k', v'⟩ := hd
    by_cases heq : k = k'
    · subst heq
      simp [Del, Get, hne]
    · by_cases h2 : k'' = k'
      · simp [Del, heq, Get, h2]
      · simp [Del, heq, Get, h2, ih]

/-- A key strictly below every stored key is absent. -/
theorem Get_eq_none_of_lt (l : Bucket α) (k : ByteStr)
    (h : ∀ p ∈ l, k < p.1) : l.Get k = none := by
  induction l with
  | nil => simp [Get]
  | cons hd tl ih =>
    obtain ⟨k', v'⟩ := hd
    have hne : k ≠ k' := ne_of_lt (h (k', v') (by simp))
    simp only [Get, if_neg hne]
    exact ih fun p hp => h p (by simp [hp])

/-- Keys of a well-formed bucket are distinct, so deleting a key removes it. -/
theorem Get_Del_self (l : Bucket α) (k : ByteStr) (hs : l.Sorted) :
    (l.Del k).Get k = none := by
  induction l with
  | nil => simp [Del, Get]
  | cons hd tl ih =>
    obtain ⟨k', v'⟩ := hd
    rw [Sorted, List.pairwise_cons] at hs
    by_cases heq : k = k'
    · subst heq
      simp only [Del, if_pos rfl]
      exact Get_eq_none_of_lt tl _ fun p hp => hs.1 p hp
    · simp [Del, heq, Get, ih hs.2]

theorem mem_Put (l : Bucket α) (k : ByteStr) (v : α) :
    ∀ p ∈ l.Put k v, p ∈ l ∨ p.1 = k := by
  induction l with
  | nil => intro p hp; simp [Put] at hp; simp [hp]
  | cons hd tl ih =>
    obtain ⟨k', v'⟩ := hd
    intro p hp
    by_cases hlt : k < k'
    · simp only [Put, if_pos hlt] at hp
      rcases List.mem_cons.mp hp with h | h
      · right; simp [h]
      · left; exact h
    · by_cases heq : k = k'
      · simp only [Put, if_neg hlt, if_pos heq] at hp
        rcases List.mem_cons.mp hp with h | h
        · right; simp [h]
        · left; exact List.mem_cons_of_mem _ h
      · simp only [Put, if_neg hlt, if_neg heq] at hp
        rcases List.mem_cons.mp hp with h | h
        · left; simp [h]
        · rcases ih p h with h2 | h2
          · left; exact List.mem_cons_of_mem _ h2
          · right; exact h2

theorem Put_Sorted (l : Bucket α) (k : ByteStr) (v : α) (hs : l.Sorted) :
    (l.Put k v).Sorted := by
  induction l with
  | nil => simp [Put, Sorted]
  | cons hd tl ih =>
    obtain ⟨k', v'⟩ := hd
    rw [Sorted, List.pairwise_cons] at hs
    by_cases hlt : k < k'
    · rw [Sorted]
      simp only [Put, if_pos hlt, List.pairwise_cons]
      refine ⟨?_, hs.1, hs.2⟩
      intro p hp
      rcases List.mem_cons.mp hp with hm | hm
      · simp [hm, hlt]
      · exact lt_trans hlt (hs.1 p hm)
    · by_cases heq : k = k'
      · subst heq
        rw [Sorted]
        have hput : Put ((k, v') :: tl) k v = (k, v) :: tl := by
          simp [Put, hlt]
        rw [hput, List.pairwise_cons]
        exact ⟨hs.1, hs.2⟩
      · have hgt : k' < k := by
          rcases lt_trichotomy k k' with h | h | h
          · exact absurd h hlt
          · exact absurd h heq
          · exact h
        rw [Sorted]
        simp only [Put, if_neg hlt, if_neg heq, List.pairwise_cons]
        refine ⟨?_, ih hs.2⟩
        intro p hp
        rcases mem_Put tl k v p hp with h | h
        · exact hs.1 p h
        · rw [h]; exact hgt

theorem Del_sublist (l : Bucket α) (k : ByteStr) : (l.Del k).Sublist l := by
  induction l with
  | nil => simp [Del]
  | cons hd tl ih =>
    obtain ⟨k', v'⟩ := hd
    by_cases heq : k = k'
    · simp only [Del, if_pos heq]
      exact List.sublist_cons_self _ _
    · simp only [Del, if_neg heq]
      exact ih.cons₂ _

theorem Del_Sorted (l : Bucket α) (k : ByteStr) (hs : l.Sorted) :
    (l.Del k).Sorted :=
  List.Pairwise.sublist (Del_sublist l k) hs

theorem mem_of_Get_eq_some (l : Bucket α) (k : ByteStr) (v : α)
    (h : l.Get k = some v) : (k, v) ∈ l := by
  induction l with
  | nil => simp [Get] at h
  | cons hd tl ih =>
    obtain ⟨k', v'⟩ := hd
    by_cases heq : k = k'
    · subst heq
      simp [Get] at h
      simp [h]
    · simp only [Get, if_neg heq] at h
      simp [ih h]

theorem Get_eq_some_of_mem (l : Bucket α) (k : ByteStr) (v : α)
    (hs : l.Sorted) (h : (k, v) ∈ l) : l.Get k = some v := by
  induction l with
  | nil => simp at h
  | cons hd tl ih =>
    obtain ⟨k', v'⟩ := hd
    rw [Sorted, List.pairwise_cons] at hs
    rcases List.mem_cons.mp h with hm | hm
    · rw [Prod.mk.injEq] at hm
      simp [Get, hm.1, hm.2]
    · have hne : k ≠ k' := by
        intro hkk
        subst hkk
        exact absurd rfl (ne_of_gt (hs.1 (k, v) hm))
      simp only [Get, if_neg hne]
      exact ih hs.2 hm

end Bucket

/-! ## Helper lemmas -/

theorem putUint64LE_length (u : Nat) : (putUint64LE u).length = 8 := by
  simp [putUint64LE]

theorem putUint64LE_ne_nil (u : Nat) : putUint64LE u ≠ [] := by
  simp [putUint64LE]

/-- The digest depends only on the hash value modulo `2^64`: it is the
little-endian encoding of an unsigned 64-bit quantity. -/
theorem putUint64LE_mod (u : Nat) : putUint64LE (u % 2 ^ 64) = putUint64LE u := by
  have hbyte : ∀ k : Nat, k + 8 ≤ 64 →
      u % 2 ^ 64 / 2 ^ k % 256 = u / 2 ^ k % 256 := by
    intro k hk
    rw [← Nat.mod_mul_right_div_self, ← Nat.mod_mul_right_div_self,
      Nat.mod_mod_of_dvd]
    have h256 : (256 : Nat) = 2 ^ 8 := by norm_num
    rw [h256, ← pow_add]
    exact pow_dvd_pow 2 (by omega)
  have h0 : u % 2 ^ 64 % 256 = u % 256 := by
    have := hbyte 0 (by omega)
    simpa using this
  simp only [putUint64LE, h0, hbyte 8 (by omega), hbyte 16 (by omega),
    hbyte 24 (by omega), hbyte 32 (by omega), hbyte 40 (by omega),
    hbyte 48 (by omega), hbyte 56 (by omega)]

/-- Go's nil-tolerant equality against an 8-byte digest holds exactly for
a present, equal committed record. -/
theorem nilEq_iff (o : Option ByteStr) (u : Nat) :
    nilEq o (putUint64LE u) = true ↔ o = some (putUint64LE u) := by
  cases o with
  | none =>
    constructor
    · intro h
      have h2 : ([] : ByteStr) = putUint64LE u := by simpa [nilEq] using h
      exact absurd h2.symm (putUint64LE_ne_nil u)
    · intro h
      exact absurd h (by simp)
  | some b =>
    constructor
    · intro h
      have h2 : b = putUint64LE u := by simpa [nilEq] using h
      rw [h2]
    · intro h
      have hb : b = putUint64LE u := by injection h
      simp [nilEq, hb]

theorem nilEq_false_of_ne (o : Option ByteStr) (u : Nat)
    (hc : o ≠ some (putUint64LE u)) : nilEq o (putUint64LE u) = false := by
  rcases Bool.eq_false_or_eq_true (nilEq o (putUint64LE u)) with h | h
  · exact absurd ((nilEq_iff o u).mp h) hc
  · exact h

section AddLemmas

variable {V : Type} (hstruct : V → Option Nat) (marshal : V → Option ByteStr)
variable (s : DiffState) (id : ByteStr) (x : V) (u : Nat)

/-- `Add` branch 1 (diff.go 168–176): the committed fingerprint matches —
no-op. -/
theorem add_committed_noop (htc : s.trackConflicts = false)
    (hu : hstruct x = some u) (hc : s.bh.Get id = some (putUint64LE u)) :
    Add hstruct marshal s id x = .ok s := by
  simp [Add, htc, HashOf, hu, (nilEq_iff _ u).mpr hc]

/-- `Add` branch 2 (diff.go 179–184): a Pending Record with an equal
fingerprint exists — no-op. -/
theorem add_pending_noop (htc : s.trackConflicts = false)
    (hu : hstruct x = some u)
    (hp : s.bph.Get id = some (putUint64LE u)) :
    Add hstruct marshal s id x = .ok s := by
  by_cases hni : nilEq (s.bh.Get id) (putUint64LE u) = true
  · simp [Add, htc, HashOf, hu, hni]
  · simp [Add, htc, HashOf, hu, Bool.eq_false_iff.mpr hni, hp,
      putUint64LE_length]

/-- `Add` branch 3 (diff.go 186–202): a Pending Record with a different
fingerprint exists — the stale payload is deleted, then the new Pending
Record and Pending Payload are written. -/
theorem add_pending_swap (raw p : ByteStr) (htc : s.trackConflicts = false)
    (hu : hstruct x = some u) (hraw : marshal x = some raw)
    (hc : s.bh.Get id ≠ some (putUint64LE u))
    (hp : s.bph.Get id = some p) (hne : p ≠ putUint64LE u) :
    Add hstruct marshal s id x =
      .ok { s with bph := s.bph.Put id (putUint64LE u),
                   bphd := (s.bphd.Del p).Put (putUint64LE u) raw } := by
  simp [Add, htc, HashOf, hu, nilEq_false_of_ne _ u hc, hp, hne,
    Add.write, hraw]

/-- `Add` branch 4 (diff.go 191–202): no Pending Record — write the new
Pending Record and Pending Payload directly. -/
theorem add_no_pending_write (raw : ByteStr) (htc : s.trackConflicts = false)
    (hu : hstruct x = some u) (hraw : marshal x = some raw)
    (hc : s.bh.Get id ≠ some (putUint64LE u))
    (hp : s.bph.Get id = none) :
    Add hstruct marshal s id x =
      .ok { s with bph := s.bph.Put id (putUint64LE u),
                   bphd := s.bphd.Put (putUint64LE u) raw } := by
  simp [Add, htc, HashOf, hu, nilEq_false_of_ne _ u hc, hp,
    Add.write, hraw]

/-- With tracking active and a marker present, `Add` rejects before any
other check (diff.go 155–161). -/
theorem add_marker_conflict (ht : s.trackConflicts = true)
    (hm : (s.bkc.Get id).isSome) :
    Add hstruct marshal s id x = .error .conflictingKey := by
  simp [Add, ht, hm]

/-- What a successful `Add.write` does to the conflict state. -/
theorem Add_write_inv (hash : ByteStr) (s' : DiffState)
    (h : Add.write marshal s id hash x = .ok s') :
    s'.trackConflicts = s.trackConflicts ∧
    ((s.trackConflicts = true ∧ s'.bkc = s.bkc.Put id ()) ∨
     (s.trackConflicts = false ∧ s'.bkc = s.bkc)) := by
  unfold Add.write at h
  split at h
  · exact absurd h (by simp)
  · dsimp only at h
    split at h
    · injection h with h
      subst h
      refine ⟨rfl, Or.inl ⟨?_, rfl⟩⟩
      rename_i hcond
      exact hcond
    · injection h with h
      subst h
      refine ⟨rfl, Or.inr ⟨?_, rfl⟩⟩
      rename_i hcond
      exact Bool.eq_false_iff.mpr hcond

/-- What a successful `Add` does to the conflict state: either a no-op, or
a write that sets the Conflict Marker whenever tracking is on. -/
theorem Add_ok_inv (s' : DiffState)
    (h : Add hstruct marshal s id x = .ok s') :
    s'.trackConflicts = s.trackConflicts ∧
    (s' = s ∨ (s.trackConflicts = true ∧ s'.bkc = s.bkc.Put id ()) ∨
      (s.trackConflicts = false ∧ s'.bkc = s.bkc)) := by
  unfold Add at h
  split at h
  · exact absurd h (by simp)
  · split at h
    · exact absurd h (by simp)
    · split at h
      · injection h with h
        subst h
        exact ⟨rfl, Or.inl rfl⟩
      · split at h
        · split at h
          · injection h with h
            subst h
            exact ⟨rfl, Or.inl rfl⟩
          · have := Add_write_inv marshal _ id x _ s' h
            exact ⟨this.1, Or.inr this.2⟩
        · have := Add_write_inv marshal _ id x _ s' h
          exact ⟨this.1, Or.inr this.2⟩

end AddLemmas

/-- The scan loop never touches the conflict bucket or the tracking
flag. -/
theorem eachGo_conflicts_frame {σ E : Type} (f : ApplyFn σ E) :
    ∀ (l : List (ByteStr × ByteStr)) (st : σ) (c : Bool) (s : DiffState)
      (errs : List (EachErr E)) (s' : DiffState) (errs' : List (EachErr E)),
      eachGo f l st c s errs = .done s' errs' →
      s'.bkc = s.bkc ∧ s'.trackConflicts = s.trackConflicts := by
  intro l
  induction l with
  | nil =>
    intro st c s errs s' errs' h
    simp only [eachGo] at h
    injection h with h1 h2
    subst h1
    exact ⟨rfl, rfl⟩
  | cons hd tl ih =>
    obtain ⟨id, hash⟩ := hd
    intro st c s errs s' errs' h
    simp only [eachGo] at h
    split at h
    · injection h with h1 h2
      subst h1
      exact ⟨rfl, rfl⟩
    · split at h
      · exact absurd h (by simp)
      · split at h
        · have h2 := ih _ _ _ _ _ _ h
          exact ⟨h2.1, h2.2⟩
        · have h2 := ih _ _ _ _ _ _ h
          exact ⟨h2.1, h2.2⟩

/-- Running one non-reset operation preserves an existing Conflict Marker
and the active tracking flag. -/
theorem runOp_marker {V σ E : Type} (hstruct : V → Option Nat)
    (marshal : V → Option ByteStr) (idw : ByteStr) (op : Op V σ E)
    (s : DiffState) (hr : op.isReset = false)
    (ht : s.trackConflicts = true) (hm : (s.bkc.Get idw).isSome) :
    (runOp hstruct marshal s op).trackConflicts = true ∧
    ((runOp hstruct marshal s op).bkc.Get idw).isSome := by
  cases op with
  | add id' x =>
    simp only [runOp]
    cases hAdd : Add hstruct marshal s id' x with
    | error e => exact ⟨ht, hm⟩
    | ok s2 =>
      obtain ⟨htc2, hcases⟩ := Add_ok_inv hstruct marshal s id' x s2 hAdd
      rcases hcases with rfl | ⟨_, hbkc⟩ | ⟨hfalse, _⟩
      · exact ⟨ht, hm⟩
      · refine ⟨htc2.trans ht, ?_⟩
        rw [hbkc]
        by_cases hid : idw = id'
        · subst hid
          rw [Bucket.Get_Put_self]
          rfl
        · rw [Bucket.Get_Put_ne _ _ _ _ hid]
          exact hm
      · exact absurd ht (by simp [hfalse])
  | each st c f =>
    simp only [runOp]
    cases hE : Each s f st c with
    | panicked => exact ⟨ht, hm⟩
    | done s2 errs =>
      unfold Each at hE
      obtain ⟨hbkc, htc⟩ := eachGo_conflicts_frame f s.bph st c s [] s2 errs hE
      exact ⟨htc.trans ht, by rw [hbkc]; exact hm⟩
  | mustNotConflict => simp [Op.isReset] at hr

/-- A whole sequence of non-reset operations preserves an existing
Conflict Marker and the active tracking flag. -/
theorem runOps_marker {V σ E : Type} (hstruct : V → Option Nat)
    (marshal : V → Option ByteStr) (idw : ByteStr) :
    ∀ (ops : List (Op V σ E)) (s : DiffState),
      (∀ op ∈ ops, op.isReset = false) →
      s.trackConflicts = true → (s.bkc.Get idw).isSome →
      (runOps hstruct marshal s ops).trackConflicts = true ∧
      ((runOps hstruct marshal s ops).bkc.Get idw).isSome := by
  intro ops
  induction ops with
  | nil =>
    intro s _ ht hm
    exact ⟨ht, hm⟩
  | cons op rest ih =>
    intro s hnr ht hm
    have h1 := runOp_marker hstruct marshal idw op s (hnr op (by simp)) ht hm
    have h2 := ih (runOp hstruct marshal s op)
      (fun o ho => hnr o (by simp [ho])) h1.1 h1.2
    simpa [runOps, List.foldl_cons] using h2

/-- The panic-freedom induction for the scan loop: if every record in the
remaining snapshot has a payload and the snapshot's fingerprints are
pairwise distinct, the loop cannot reach the panic branch. -/
theorem eachGo_no_panic {σ E : Type} (f : ApplyFn σ E) :
    ∀ (l : List (ByteStr × ByteStr)) (st : σ) (c : Bool) (s : DiffState)
      (errs : List (EachErr E)),
      (∀ q ∈ l, (s.bphd.Get q.2).isSome) →
      (l.map Prod.snd).Nodup →
      s.bphd.Sorted →
      eachGo f l st c s errs ≠ .panicked := by
  intro l
  induction l with
  | nil =>
    intro st c s errs _ _ _ h
    simp [eachGo] at h
  | cons hd tl ih =>
    obtain ⟨id, hash⟩ := hd
    intro st c s errs hpay hnd hsort h
    obtain ⟨hnotin, htail⟩ :
        (∀ x : ByteStr, (x, hash) ∉ tl) ∧ (List.map Prod.snd tl).Nodup := by
      simpa using hnd
    simp only [eachGo] at h
    split at h
    · exact absurd h (by simp)
    · have hhead : (s.bphd.Get hash).isSome := hpay (id, hash) (by simp)
      obtain ⟨data, hdata⟩ := Option.isSome_iff_exists.mp hhead
      rw [hdata] at h
      dsimp only at h
      split at h
      · exact ih _ _ _ _ (fun q hq => hpay q (by simp [hq])) htail hsort h
      · refine ih _ _ _ _ ?_ htail (Bucket.Del_Sorted _ _ hsort) h
        intro q hq
        have hne : q.2 ≠ hash := by
          intro hq2
          have hmem : (q.1, q.2) ∈ tl := by simpa using hq
          exact hnotin q.1 (hq2 ▸ hmem)
        rw [Bucket.Get_Del_ne _ _ _ hne]
        exact hpay q (by simp [hq])

/-- Strictly ascending keys are distinct. -/
theorem Bucket.Sorted_keys_nodup {α : Type} (l : Bucket α) (hs : l.Sorted) :
    (l.map Prod.fst).Nodup := by
  rw [List.Nodup, List.pairwise_map]
  exact hs.imp ne_of_lt

/-- The behaviour of the scan loop under a per-identity verdict callback
that never cancels: the collected errors are exactly the failures in
encounter order, every succeeding record is promoted (committed written,
pending record and payload removed), and every failing record — and its
payload — is left untouched. -/
theorem eachGo_verdict {σ E : Type} (p : ByteStr → Option E) :
    ∀ (l : List (ByteStr × ByteStr)) (st : σ) (s : DiffState)
      (errs : List (EachErr E)),
      (∀ q ∈ l, (s.bphd.Get q.2).isSome) →
      (l.map Prod.fst).Nodup →
      (l.map Prod.snd).Nodup →
      s.bh.Sorted → s.bph.Sorted → s.bphd.Sorted →
      ∃ s' : DiffState,
        eachGo (verdictFn p) l st false s errs =
          .done s' (errs ++ l.filterMap
            (fun q => (p q.1).map (fun e => EachErr.item q.1 e))) ∧
        (∀ k, k ∉ l.map Prod.fst →
          s'.bph.Get k = s.bph.Get k ∧ s'.bh.Get k = s.bh.Get k) ∧
        (∀ h, h ∉ l.map Prod.snd → s'.bphd.Get h = s.bphd.Get h) ∧
        (∀ q ∈ l, p q.1 = none →
          s'.bh.Get q.1 = some q.2 ∧ s'.bph.Get q.1 = none ∧
          s'.bphd.Get q.2 = none) ∧
        (∀ q ∈ l, ∀ e, p q.1 = some e →
          s'.bph.Get q.1 = s.bph.Get q.1 ∧
          s'.bphd.Get q.2 = s.bphd.Get q.2 ∧
          s'.bh.Get q.1 = s.bh.Get q.1) := by
  intro l
  induction l with
  | nil =>
    intro st s errs _ _ _ _ _ _
    exact ⟨s, by simp [eachGo], fun k _ => ⟨rfl, rfl⟩, fun h _ => rfl,
      fun q hq => absurd hq (List.not_mem_nil q),
      fun q hq => absurd hq (List.not_mem_nil q)⟩
  | cons hd tl ih =>
    obtain ⟨id, hash⟩ := hd
    intro st s errs hpay hndk hndh hsbh hsbph hsbphd
    rw [List.map_cons, List.nodup_cons] at hndk
    obtain ⟨hids, hndk⟩ := hndk
    rw [List.map_cons, List.nodup_cons] at hndh
    obtain ⟨hhashes, hndh⟩ := hndh
    have hhead : (s.bphd.Get hash).isSome := hpay (id, hash) (by simp)
    obtain ⟨data, hdata⟩ := Option.isSome_iff_exists.mp hhead
    cases hpid : p id with
    | some e =>
      have hstep : eachGo (verdictFn p) ((id, hash) :: tl) st false s errs =
          eachGo (verdictFn p) tl st false s (errs ++ [.item id e]) := by
        simp [eachGo, hdata, verdictFn, hpid]
      obtain ⟨s', heq, hfr, hfrD, hnone, hsome⟩ :=
        ih st s (errs ++ [.item id e])
          (fun q hq => hpay q (by simp [hq])) hndk hndh hsbh hsbph hsbphd
      refine ⟨s', ?_, ?_, ?_, ?_, ?_⟩
      · rw [hstep, heq]
        simp [List.filterMap_cons, hpid]
      · intro k hk
        exact hfr k (fun hmem => hk (by simp [hmem]))
      · intro h hh
        exact hfrD h (fun hmem => hh (by simp [hmem]))
      · intro q hq hpq
        rcases List.mem_cons.mp hq with rfl | hq'
        · have hcontra : p id = none := hpq
          rw [hpid] at hcontra
          exact Option.noConfusion hcontra
        · exact hnone q hq' hpq
      · intro q hq e' hpq
        rcases List.mem_cons.mp hq with rfl | hq'
        · exact ⟨(hfr id hids).1, hfrD hash hhashes, (hfr id hids).2⟩
        · exact hsome q hq' e' hpq
    | none =>
      have hstep : eachGo (verdictFn p) ((id, hash) :: tl) st false s errs =
          eachGo (verdictFn p) tl st false
            { s with bh := s.bh.Put id hash, bph := s.bph.Del id,
                     bphd := s.bphd.Del hash } errs := by
        simp [eachGo, hdata, verdictFn, hpid]
      obtain ⟨s', heq, hfr, hfrD, hnone, hsome⟩ :=
        ih st
          { s with bh := s.bh.Put id hash, bph := s.bph.Del id,
                   bphd := s.bphd.Del hash } errs
          (fun q hq => by
            have hq2 : q.2 ≠ hash := by
              intro he
              have hmm := List.mem_map_of_mem Prod.snd hq
              rw [he] at hmm
              exact hhashes hmm
            show ((s.bphd.Del hash).Get q.2).isSome
            rw [Bucket.Get_Del_ne s.bphd hash q.2 hq2]
            exact hpay q (by simp [hq]))
          hndk hndh
          (Bucket.Put_Sorted s.bh id hash hsbh)
          (Bucket.Del_Sorted s.bph id hsbph)
          (Bucket.Del_Sorted s.bphd hash hsbphd)
      refine ⟨s', ?_, ?_, ?_, ?_, ?_⟩
      · rw [hstep, heq]
        simp [List.filterMap_cons, hpid]
      · intro k hk
        have hkid : k ≠ id := fun he => hk (by simp [he])
        have hk' : k ∉ tl.map Prod.fst := fun hmem => hk (by simp [hmem])
        obtain ⟨h1, h2⟩ := hfr k hk'
        constructor
        · rw [h1]
          exact Bucket.Get_Del_ne s.bph id k hkid
        · rw [h2]
          exact Bucket.Get_Put_ne s.bh id k hash hkid
      · intro h hh
        have hhne : h ≠ hash := fun he => hh (by simp [he])
        have hh' : h ∉ tl.map Prod.snd := fun hmem => hh (by simp [hmem])
        rw [hfrD h hh']
        exact Bucket.Get_Del_ne s.bphd hash h hhne
      · intro q hq hpq
        rcases List.mem_cons.mp hq with rfl | hq'
        · refine ⟨?_, ?_, ?_⟩
          · rw [(hfr id hids).2]
            exact Bucket.Get_Put_self s.bh id hash
          · rw [(hfr id hids).1]
            exact Bucket.Get_Del_self s.bph id hsbph
          · rw [hfrD hash hhashes]
            exact Bucket.Get_Del_self s.bphd hash hsbphd
        · exact hnone q hq' hpq
      · intro q hq e' hpq
        rcases List.mem_cons.mp hq with rfl | hq'
        · have hcontra : p id = some e' := hpq
          rw [hpid] at hcontra
          exact Option.noConfusion hcontra
        · have hq1 : q.1 ≠ id := by
            intro he
            have hmm := List.mem_map_of_mem Prod.fst hq'
            rw [he] at hmm
            exact hids hmm
          have hq2 : q.2 ≠ hash := by
            intro he
            have hmm := List.mem_map_of_mem Prod.snd hq'
            rw [he] at hmm
            exact hhashes hmm
          obtain ⟨h1, h2, h3⟩ := hsome q hq' e' hpq
          refine ⟨?_, ?_, ?_⟩
          · rw [h1]
            exact Bucket.Get_Del_ne s.bph id q.1 hq1
          · rw [h2]
            exact Bucket.Get_Del_ne s.bphd hash q.2 hq2
          · rw [h3]
            exact Bucket.Get_Put_ne s.bh id q.1 hash hq1

/-! ## Claim theorems -/

/-- **C9** — For every value accepted by the fingerprint function,
`HashOf` returns a digest of exactly 8 bytes, the little-endian byte
encoding of the unsigned 64-bit structural hash (byte `i` is
`hash >> (8*i) mod 256`, and the digest only depends on the hash modulo
`2^64`), and structurally equal inputs (equal results of the structural
hash) yield the identical digest. -/
theorem HashOf_eight_byte_le {V : Type} (hstruct : V → Option Nat) (x : V)
    (d : ByteStr) (h : HashOf hstruct x = some d) :
    d.length = 8 ∧
    (∃ u, hstruct x = some u ∧ d = putUint64LE u ∧
      putUint64LE (u % 2 ^ 64) = putUint64LE u ∧
      ∀ i : Nat, i < 8 → d.getD i 0 = u / 2 ^ (8 * i) % 256) ∧
    (∀ y : V, hstruct y = hstruct x → HashOf hstruct y = some d) := by
  unfold HashOf at h
  cases hu : hstruct x with
  | none => rw [hu] at h; simp at h
  | some u =>
    rw [hu] at h
    simp only [Option.map_some', Option.some.injEq] at h
    subst h
    refine ⟨putUint64LE_length u, ⟨u, rfl, rfl, putUint64LE_mod u, ?_⟩, ?_⟩
    · intro i hi
      interval_cases i <;> simp [putUint64LE]
    · intro y hy
      unfold HashOf
      rw [hy]
      rfl

/-- Witness for C9 at the concrete hash function and the value `3`. -/
theorem HashOf_eight_byte_le_wit :
    (putUint64LE 3).length = 8 ∧
    (∃ u, hstructN 3 = some u ∧ putUint64LE 3 = putUint64LE u ∧
      putUint64LE (u % 2 ^ 64) = putUint64LE u ∧
      ∀ i : Nat, i < 8 → (putUint64LE 3).getD i 0 = u / 2 ^ (8 * i) % 256) ∧
    (∀ y : Nat, hstructN y = hstructN 3 → HashOf hstructN y = some (putUint64LE 3)) :=
  HashOf_eight_byte_le hstructN 3 (putUint64LE 3) (by rfl)

/-- **C10** — With conflict tracking active and a Conflict Marker already
present for `id`, `Add` fails with `ErrConflictingKey` for every value
`x`, in particular also when `fingerprint(x)` matches the Committed or
Pending Record: the conflict check precedes hashing and both no-op
checks, and the failed transaction rolls back, leaving the state
unchanged. -/
theorem Add_conflict_first {V : Type} (hstruct : V → Option Nat)
    (marshal : V → Option ByteStr) (s : DiffState) (id : ByteStr) (x : V)
    (ht : s.trackConflicts = true) (hm : (s.bkc.Get id).isSome) :
    Add hstruct marshal s id x = .error .conflictingKey := by
  simp [Add, ht, hm]

/-- Witness for C10: the marker is set and `fingerprint(5)` equals the
committed record for `[0]` — without tracking this `Add` would be a
silent no-op, with tracking it is rejected. -/
theorem Add_conflict_first_wit :
    Add hstructN marshalN
      { bh := [([0], putUint64LE 5)], bph := [], bphd := [],
        bkc := [([0], ())], trackConflicts := true } [0] 5 =
      .error .conflictingKey :=
  Add_conflict_first hstructN marshalN _ [0] 5 (by rfl) (by rfl)

/-- **C6** — `Changed(id, x)` is a pure read (it runs in a read-only
`View` transaction and, in this embedding, returns only a boolean, no
state): it answers `true` exactly when the Committed Record for `id` is
absent or stores a fingerprint different from `fingerprint(x)`, and its
answer is independent of the pending region, the payload region, the
conflict markers and the tracking flag. -/
theorem Changed_pure_read {V : Type} (hstruct : V → Option Nat)
    (s : DiffState) (id : ByteStr) (x : V) (u : Nat)
    (hu : hstruct x = some u) :
    (Changed hstruct s id x = .ok true ↔
      (s.bh.Get id = none ∨ s.bh.Get id ≠ some (putUint64LE u))) ∧
    (Changed hstruct s id x = .ok false ↔
      s.bh.Get id = some (putUint64LE u)) ∧
    (∀ bph' bphd' bkc' tc',
      Changed hstruct
        { bh := s.bh, bph := bph', bphd := bphd', bkc := bkc',
          trackConflicts := tc' } id x = Changed hstruct s id x) := by
  have hch : Changed hstruct s id x =
      .ok (!nilEq (s.bh.Get id) (putUint64LE u)) := by
    simp [Changed, HashOf, hu]
  have hiff : (s.bh.Get id = none ∨ s.bh.Get id ≠ some (putUint64LE u)) ↔
      s.bh.Get id ≠ some (putUint64LE u) :=
    or_iff_right_of_imp (fun h => by rw [h]; simp)
  refine ⟨?_, ?_, ?_⟩
  · rw [hch, hiff]
    simp only [Except.ok.injEq, Bool.not_eq_true', Bool.eq_false_iff, ne_eq]
    exact not_congr (nilEq_iff _ u)
  · rw [hch]
    simp only [Except.ok.injEq, Bool.not_eq_false']
    exact nilEq_iff _ u
  · intro bph' bphd' bkc' tc'
    simp [Changed, HashOf, hu]

/-- Witness for C6: a state whose committed record for `[0]` is the
fingerprint of `5`. -/
theorem Changed_pure_read_wit :
    (Changed hstructN
        { bh := [([0], putUint64LE 5)], bph := [([0], putUint64LE 9)],
          bphd := [(putUint64LE 9, [9])], bkc := [], trackConflicts := false }
        [0] 5 = .ok true ↔
      (Bucket.Get [([0], putUint64LE 5)] [0] = none ∨
        Bucket.Get [([0], putUint64LE 5)] [0] ≠ some (putUint64LE 5))) ∧
    (Changed hstructN
        { bh := [([0], putUint64LE 5)], bph := [([0], putUint64LE 9)],
          bphd := [(putUint64LE 9, [9])], bkc := [], trackConflicts := false }
        [0] 5 = .ok false ↔
      Bucket.Get [([0], putUint64LE 5)] [0] = some (putUint64LE 5)) ∧
    (∀ bph' bphd' bkc' tc',
      Changed hstructN
        { bh := [([0], putUint64LE 5)], bph := bph', bphd := bphd',
          bkc := bkc', trackConflicts := tc' } [0] 5 =
      Changed hstructN
        { bh := [([0], putUint64LE 5)], bph := [([0], putUint64LE 9)],
          bphd := [(putUint64LE 9, [9])], bkc := [], trackConflicts := false }
        [0] 5) :=
  Changed_pure_read hstructN _ [0] 5 5 (by rfl)

/-- **C8** — From a fresh collection, `Add(id, v)` twice in a row with no
apply in between: the first call creates the single pending entry, the
second finds a Pending Record with an equal fingerprint and changes
nothing, and `CountChanges()` is 1, not 2. -/
theorem Add_idempotent {V : Type} (hstruct : V → Option Nat)
    (marshal : V → Option ByteStr) (id : ByteStr) (x : V) (u : Nat)
    (raw : ByteStr) (hu : hstruct x = some u) (hm : marshal x = some raw) :
    ∃ s1, Add hstruct marshal freshDiff id x = .ok s1 ∧
      Add hstruct marshal s1 id x = .ok s1 ∧
      CountChanges s1 = 1 := by
  refine ⟨{ bh := [], bph := [(id, putUint64LE u)],
            bphd := [(putUint64LE u, raw)], bkc := [],
            trackConflicts := false }, ?_, ?_, rfl⟩
  · simp [Add, HashOf, hu, freshDiff, nilEq, putUint64LE_ne_nil,
      Bucket.Get, Add.write, Bucket.Put, hm]
  · simp [Add, HashOf, hu, nilEq, Bucket.Get, putUint64LE_length]

/-- Witness for C8 at identity `[0]` and value `5`. -/
theorem Add_idempotent_wit :
    ∃ s1, Add hstructN marshalN freshDiff [0] 5 = .ok s1 ∧
      Add hstructN marshalN s1 [0] 5 = .ok s1 ∧
      CountChanges s1 = 1 :=
  Add_idempotent hstructN marshalN [0] 5 5 [5] (by rfl) (by rfl)

/-- **C3** — With the 10 distinct pending items of `diffTen`, running
`Each` with a callback that cancels the context right after the 4th
item: exactly the first 4 identities (in ascending byte order) are
promoted into the committed region, `CountChanges()` is 6 afterwards,
and the aggregated error is exactly the cancellation entry.  The
returned state is the committed transaction, so the 4 promotions persist
despite the non-nil error. -/
theorem Each_partial_cancel :
    CountChanges diffTen = 10 ∧
    Each diffTen cancelAfter4 0 false = .done sAfterCancel [.canceled] ∧
    CountChanges sAfterCancel = 6 ∧
    CountTracking sAfterCancel = 4 ∧
    sAfterCancel.bh = [([0], putUint64LE 100), ([1], putUint64LE 101),
                       ([2], putUint64LE 102), ([3], putUint64LE 103)] := by
  refine ⟨rfl, ?_, rfl, rfl, rfl⟩
  rfl

/-- **C1** (the code violates the claimed invariant) — From a fresh
collection, `Add([0], 5)`, `Add([1], 5)` (equal fingerprints) and then
`Add([0], 7)` reach a state in which identity `[1]`'s Pending Record
still holds the fingerprint of `5` while the Pending Payload bucket has
no entry under it: `Add`'s deletion of the superseded payload removed a
payload another identity still referenced.  Running `Each` on the
intermediate two-pending state likewise hits the
`panic("missing hash data")` branch, contradicting that assertion. -/
theorem pending_payload_invariant_bug :
    sSharedSuperseded.bph.Get [1] = some (putUint64LE 5) ∧
    sSharedSuperseded.bphd.Get (putUint64LE 5) = none ∧
    ¬ PendingBacked sSharedSuperseded ∧
    Each sShared applyOkN 0 false = .panicked := by
  refine ⟨rfl, rfl, by decide, rfl⟩

/-- **C2 counterexample** — `sCycleNoop` is reachable (by `Add([0], 5)`,
a successful `Each`, then `MustNotConflict`) and has conflict tracking
active.  `Add([0], 5)` now matches the committed record: it succeeds
without setting a Conflict Marker and returns the state unchanged, so
the immediately following second `Add([0], 5)` is the same application
and succeeds as well — identity `[0]` receives two non-failing `Add`
calls in one cycle, refuting the claim that the second must fail. -/
theorem conflict_tracking_noop_cex :
    sCycleNoop.trackConflicts = true ∧
    Add hstructN marshalN sCycleNoop [0] 5 = .ok sCycleNoop ∧
    Add hstructN marshalN sCycleNoop [0] 5 ≠ .error .conflictingKey := by
  refine ⟨rfl, rfl, fun h => Except.noConfusion h⟩

/-- **C7 counterexample** — A reachable, well-formed state satisfying the
Pending Record/Payload invariant (two identities pending at one shared
fingerprint) on which `Each` with an always-succeeding callback still
panics: applying `[0]` deletes the shared payload, and the iteration
then finds no payload for `[1]`.  The panic branch is therefore not
unreachable under the invariant alone. -/
theorem each_panic_reachable_cex :
    PendingBacked sShared ∧
    sShared.WF ∧
    Each sShared applyOkN 0 false = .panicked := by
  refine ⟨by decide, by decide, rfl⟩

/-- **C2 (amended)** — While conflict tracking is active, once an
identity receives a *mutating* (non-no-op) successful `Add`, every later
`Add` for that identity in the same cycle (any further sequence of
`Add`/`Each` operations with no `MustNotConflict` reset) fails with
`ErrConflictingKey`.  (A first `Add` that is a silent no-op sets no
Conflict Marker, so the original "any two Add calls" phrasing fails —
see the counterexample.) -/
theorem conflict_second_add_fails {V σ E : Type} (hstruct : V → Option Nat)
    (marshal : V → Option ByteStr) (s s' : DiffState) (id : ByteStr) (x : V)
    (htc : s.trackConflicts = true)
    (hadd : Add hstruct marshal s id x = .ok s') (hmut : s' ≠ s)
    (ops : List (Op V σ E)) (hnr : ∀ op ∈ ops, op.isReset = false) (y : V) :
    Add hstruct marshal (runOps hstruct marshal s' ops) id y =
      .error .conflictingKey := by
  obtain ⟨htc', hcases⟩ := Add_ok_inv hstruct marshal s id x s' hadd
  have hmarker : (s'.bkc.Get id).isSome := by
    rcases hcases with rfl | ⟨_, hbkc⟩ | ⟨hfalse, _⟩
    · exact absurd rfl hmut
    · rw [hbkc, Bucket.Get_Put_self]
      rfl
    · exact absurd htc (by simp [hfalse])
  have hrun := runOps_marker hstruct marshal id ops s' hnr (htc'.trans htc) hmarker
  exact add_marker_conflict hstruct marshal _ id y hrun.1 hrun.2

/-- Witness for the amended C2: after `MustNotConflict` on a fresh
collection, `Add([0], 5)` mutates; with no further operations, a second
`Add([0], 7)` is rejected. -/
theorem conflict_second_add_fails_wit :
    Add hstructN marshalN
      (runOps hstructN marshalN sTracked1 ([] : List (Op Nat Nat Nat)))
      [0] 7 = .error .conflictingKey :=
  conflict_second_add_fails hstructN marshalN (MustNotConflict freshDiff)
    sTracked1 [0] 5 rfl (by rfl) (by decide) []
    (fun op h => absurd h (List.not_mem_nil op)) 7

/-- **C7 (amended)** — During `Each`, reaching a Pending Record whose
fingerprint has no Pending Payload aborts with the
`panic("missing hash data")` branch rather than returning an error or
skipping the entry; and under the Pending Record/Payload invariant
*together with pairwise-distinct pending fingerprints* (the
counterexample shows the invariant alone does not suffice), the panic
branch is unreachable for every callback and initial cancellation
state. -/
theorem each_missing_payload_fatal {σ E : Type} (f : ApplyFn σ E) :
    (∀ (id hash : ByteStr) (rest : List (ByteStr × ByteStr)) (st : σ)
      (s : DiffState) (errs : List (EachErr E)),
      s.bphd.Get hash = none →
      eachGo f ((id, hash) :: rest) st false s errs = .panicked) ∧
    (∀ (s : DiffState) (st : σ) (c : Bool),
      PendingBacked s → (s.bph.map Prod.snd).Nodup → s.bphd.Sorted →
      Each s f st c ≠ .panicked) := by
  constructor
  · intro id hash rest st s errs hnone
    simp [eachGo, hnone]
  · intro s st c hinv hnd hsort
    unfold Each
    exact eachGo_no_panic f s.bph st c s [] hinv hnd hsort

/-- Witness for the amended C7: the panic fires on a state with a
dangling pending fingerprint, and the scan of the healthy `diffTen`
(distinct fingerprints, invariant holds) never panics. -/
theorem each_missing_payload_fatal_wit :
    eachGo applyOkN [([1], putUint64LE 5)] 0 false freshDiff [] =
      .panicked ∧
    Each diffTen applyOkN 0 false ≠ .panicked :=
  ⟨(each_missing_payload_fatal applyOkN).1 [1] (putUint64LE 5) [] 0
      freshDiff [] rfl,
   (each_missing_payload_fatal applyOkN).2 diffTen 0 false (by decide)
      (by decide) (by decide)⟩

/-- **C5** — `Add(id, value)` follows exactly the claimed case analysis
(outside a conflict rejection, here: tracking off): committed fingerprint
match — no-op; pending record with equal fingerprint — no-op; pending
record with different fingerprint — stale payload deleted, then the new
Pending Record and Pending Payload written; no pending record — both
written directly.  Consequently `Add(id, v1)` then `Add(id, v2)` with
distinct fingerprints and no apply in between leaves the single pending
entry for `id` at `v2`'s fingerprint, with `v2`'s payload stored and
`v1`'s payload gone. -/
theorem Add_case_analysis {V : Type} (hstruct : V → Option Nat)
    (marshal : V → Option ByteStr) (s : DiffState) (id : ByteStr)
    (htc : s.trackConflicts = false) (hbphd : s.bphd.Sorted) :
    (∀ x u, hstruct x = some u → s.bh.Get id = some (putUint64LE u) →
      Add hstruct marshal s id x = .ok s) ∧
    (∀ x u, hstruct x = some u → s.bph.Get id = some (putUint64LE u) →
      Add hstruct marshal s id x = .ok s) ∧
    (∀ x u raw p, hstruct x = some u → marshal x = some raw →
      s.bh.Get id ≠ some (putUint64LE u) → s.bph.Get id = some p →
      p ≠ putUint64LE u →
      Add hstruct marshal s id x =
        .ok { s with bph := s.bph.Put id (putUint64LE u),
                     bphd := (s.bphd.Del p).Put (putUint64LE u) raw }) ∧
    (∀ x u raw, hstruct x = some u → marshal x = some raw →
      s.bh.Get id ≠ some (putUint64LE u) → s.bph.Get id = none →
      Add hstruct marshal s id x =
        .ok { s with bph := s.bph.Put id (putUint64LE u),
                     bphd := s.bphd.Put (putUint64LE u) raw }) ∧
    (∀ v1 v2 u1 u2 raw1 raw2,
      hstruct v1 = some u1 → hstruct v2 = some u2 →
      putUint64LE u1 ≠ putUint64LE u2 →
      marshal v1 = some raw1 → marshal v2 = some raw2 →
      s.bh.Get id ≠ some (putUint64LE u1) →
      s.bh.Get id ≠ some (putUint64LE u2) →
      s.bph.Get id = none →
      ∃ s2, Add hstruct marshal s id v1 =
          .ok { s with bph := s.bph.Put id (putUint64LE u1),
                       bphd := s.bphd.Put (putUint64LE u1) raw1 } ∧
        Add hstruct marshal
          { s with bph := s.bph.Put id (putUint64LE u1),
                   bphd := s.bphd.Put (putUint64LE u1) raw1 } id v2 =
          .ok s2 ∧
        s2.bph.Get id = some (putUint64LE u2) ∧
        s2.bphd.Get (putUint64LE u2) = some raw2 ∧
        s2.bphd.Get (putUint64LE u1) = none) := by
  refine ⟨?_, ?_, ?_, ?_, ?_⟩
  · intro x u hu hc
    exact add_committed_noop hstruct marshal s id x u htc hu hc
  · intro x u hu hp
    exact add_pending_noop hstruct marshal s id x u htc hu hp
  · intro x u raw p hu hraw hc hp hne
    exact add_pending_swap hstruct marshal s id x u raw p htc hu hraw hc hp hne
  · intro x u raw hu hraw hc hp
    exact add_no_pending_write hstruct marshal s id x u raw htc hu hraw hc hp
  · intro v1 v2 u1 u2 raw1 raw2 hu1 hu2 hne hraw1 hraw2 hc1 hc2 hp
    have h1 := add_no_pending_write hstruct marshal s id v1 u1 raw1 htc hu1
      hraw1 hc1 hp
    have h2 := add_pending_swap hstruct marshal
      { s with bph := s.bph.Put id (putUint64LE u1),
               bphd := s.bphd.Put (putUint64LE u1) raw1 }
      id v2 u2 raw2 (putUint64LE u1) htc hu2 hraw2 hc2
      (Bucket.Get_Put_self s.bph id (putUint64LE u1)) hne
    refine ⟨_, h1, h2, ?_, ?_, ?_⟩
    · exact Bucket.Get_Put_self _ id (putUint64LE u2)
    · exact Bucket.Get_Put_self _ (putUint64LE u2) raw2
    · rw [Bucket.Get_Put_ne _ (putUint64LE u2) (putUint64LE u1) raw2 hne]
      exact Bucket.Get_Del_self _ (putUint64LE u1)
        (Bucket.Put_Sorted s.bphd (putUint64LE u1) raw1 hbphd)

/-- **C4** — For pending items under a per-identity verdict callback that
never cancels: `Each` returns the aggregated per-item failures in
encounter order, and the empty aggregate (Go `nil`) exactly when no item
failed; every item whose apply succeeds is committed (Committed Record
written, Pending Record and Pending Payload removed), and every failing
item keeps its Pending Record, Pending Payload and Committed Record
untouched for retry — in particular, when exactly one item `k` fails,
all items but `k` are committed, `k` stays pending and the error names
exactly `k`'s failure. -/
theorem Each_per_item_failure {σ E : Type} (p : ByteStr → Option E)
    (s : DiffState) (st : σ) (hWF : s.WF) (hinv : PendingBacked s)
    (hnd : (s.bph.map Prod.snd).Nodup) :
    ∃ s', Each s (verdictFn p) st false =
        .done s'
          (s.bph.filterMap fun q => (p q.1).map fun e => EachErr.item q.1 e) ∧
      ((s.bph.filterMap fun q => (p q.1).map fun e => EachErr.item q.1 e)
          = [] ↔ ∀ q ∈ s.bph, p q.1 = none) ∧
      (∀ id hash, s.bph.Get id = some hash → p id = none →
        s'.bh.Get id = some hash ∧ s'.bph.Get id = none ∧
        s'.bphd.Get hash = none) ∧
      (∀ id hash e, s.bph.Get id = some hash → p id = some e →
        s'.bph.Get id = some hash ∧ s'.bphd.Get hash = s.bphd.Get hash ∧
        s'.bh.Get id = s.bh.Get id) := by
  obtain ⟨hsbh, hsbph, hsbphd⟩ := hWF
  obtain ⟨s', heq, hfr, hfrD, hnone, hsome⟩ :=
    eachGo_verdict p s.bph st s [] hinv
      (Bucket.Sorted_keys_nodup s.bph hsbph) hnd hsbh hsbph hsbphd
  refine ⟨s', ?_, ?_, ?_, ?_⟩
  · unfold Each
    rw [heq]
    simp
  · constructor
    · intro h q hq
      have h2 := (List.filterMap_eq_nil_iff.mp h) q hq
      simpa using h2
    · intro h
      apply List.filterMap_eq_nil_iff.mpr
      intro q hq
      simp [h q hq]
  · intro id hash hget hpid
    exact hnone (id, hash) (Bucket.mem_of_Get_eq_some s.bph id hash hget) hpid
  · intro id hash e hget hpid
    have h3 := hsome (id, hash) (Bucket.mem_of_Get_eq_some s.bph id hash hget)
      e hpid
    exact ⟨h3.1.trans hget, h3.2.1, h3.2.2⟩

/-- Witness for C4: three pending items, the callback failing exactly on
identity `[1]`. -/
theorem Each_per_item_failure_wit :
    ∃ s', Each sThree (verdictFn failOn1) 0 false =
        .done s'
          (sThree.bph.filterMap fun q =>
            (failOn1 q.1).map fun e => EachErr.item q.1 e) ∧
      ((sThree.bph.filterMap fun q =>
            (failOn1 q.1).map fun e => EachErr.item q.1 e)
          = [] ↔ ∀ q ∈ sThree.bph, failOn1 q.1 = none) ∧
      (∀ id hash, sThree.bph.Get id = some hash → failOn1 id = none →
        s'.bh.Get id = some hash ∧ s'.bph.Get id = none ∧
        s'.bphd.Get hash = none) ∧
      (∀ id hash e, sThree.bph.Get id = some hash → failOn1 id = some e →
        s'.bph.Get id = some hash ∧
        s'.bphd.Get hash = sThree.bphd.Get hash ∧
        s'.bh.Get id = sThree.bh.Get id) :=
  Each_per_item_failure failOn1 sThree 0 (by decide) (by decide) (by decide)

/-- Witness for C5 at the supersede scenario on a fresh collection:
`Add([0], 1)` then `Add([0], 2)`. -/
theorem Add_case_analysis_wit :
    ∃ s2, Add hstructN marshalN freshDiff [0] 1 =
        .ok { freshDiff with
                bph := freshDiff.bph.Put [0] (putUint64LE 1),
                bphd := freshDiff.bphd.Put (putUint64LE 1) [1] } ∧
      Add hstructN marshalN
        { freshDiff with
            bph := freshDiff.bph.Put [0] (putUint64LE 1),
            bphd := freshDiff.bphd.Put (putUint64LE 1) [1] } [0] 2 =
        .ok s2 ∧
      s2.bph.Get [0] = some (putUint64LE 2) ∧
      s2.bphd.Get (putUint64LE 2) = some [2] ∧
      s2.bphd.Get (putUint64LE 1) = none :=
  (Add_case_analysis hstructN marshalN freshDiff [0] rfl (by decide)).2.2.2.2
    1 2 1 2 [1] [2] rfl rfl (by decide) rfl rfl (by decide) (by decide) rfl

end DiffDB
